import Mathlib

/-!
Verification of the agfs-shell core registries against their Python source
(`agfs_shell/alias_registry.py`, `variable_manager.py`, `context.py`,
`exceptions.py`, `path_manager.py`).

Python strings are modelled as `List Char` (ASCII suffices for every claim),
Python dicts either as association lists (when the code iterates over them)
or as functions `List Char → Option (List Char)` (when only keyed access
occurs).  Python's `list.append`/`list.pop` stacks are stored with the most
recently pushed element at the *head* of a Lean list, so `append` is `cons`,
`pop` takes the head, and `reversed(stack)` iteration is plain left-to-right
iteration.
-/

/-- Python strings are modelled as lists of characters. -/
abbrev Str := List Char

/-- Shorthand turning a Lean string literal into the `Str` model. -/
def strL (s : String) : Str := s.toList

/-- Membership test of Python `str.isspace` characters used by
`str.split(None)` (ASCII whitespace; the repository only feeds ASCII). -/
def isSpaceChar (c : Char) : Bool :=
  (c == ' ') || (c == '\t') || (c == '\n') || (c == '\r') ||
  (c == '\x0b') || (c == '\x0c')

/-- Lookup in a Python dict modelled as an association list
(`d.get(k)` / `k in d`). -/
def dictGet (m : List (Str × Str)) (key : Str) : Option Str :=
  match m with
  | [] => none
  | (k, v) :: t => if k = key then some v else dictGet t key

/-- Assignment `d[k] = v` in a Python dict modelled as an association list:
replaces the existing binding or appends a fresh one. -/
def dictSet (m : List (Str × Str)) (key val : Str) : List (Str × Str) :=
  match m with
  | [] => [(key, val)]
  | (k, v) :: t => if k = key then (k, val) :: t else (k, v) :: dictSet t key val

/-! ## AliasRegistry (`agfs_shell/alias_registry.py`) -/

/-- The `_aliases` dict of `AliasRegistry`. -/
abbrev AliasReg := List (Str × Str)

/-- `AliasRegistry.define(name, expansion)`: `self._aliases[name] = expansion`. -/
def defineAlias (al : AliasReg) (name expansion : Str) : AliasReg :=
  dictSet al name expansion

/-- Python `command.split(None, 1)` reported as `(first_word, rest)`:
`none` when the string holds no word; `rest` is the remainder after the
whitespace run that follows the first word (empty when the code would use
`""` for a missing `parts[1]`). -/
def pySplit1 (s : Str) : Option (Str × Str) :=
  match s.dropWhile isSpaceChar with
  | [] => none
  | s1 =>
    some (s1.takeWhile (fun c => !(isSpaceChar c)),
      (s1.dropWhile (fun c => !(isSpaceChar c))).dropWhile isSpaceChar)

/-- `AliasRegistry._expand_recursive(command, seen, depth, max_depth)`, with
the two counters replaced by the fuel `max_depth - depth`; the Python guard
`depth >= max_depth` is exactly `fuel = 0`, and the recursive call at
`depth + 1` is the call at `fuel - 1`.  `seen` is the Python set of alias
names already expanded in this chain. -/
def expandRecursiveFuel (al : AliasReg) : Nat → Str → List Str → Str
  | 0, command, _ => command
  | fuel + 1, command, seen =>
    match pySplit1 command with
    | none => command
    | some (cmd, rest) =>
      match dictGet al cmd with
      | none => command
      | some expansion =>
        if cmd ∈ seen then command
        else
          expandRecursiveFuel al fuel expansion (cmd :: seen) ++
            (if rest ≠ [] then ' ' :: rest else [])

/-- `AliasRegistry._expand_recursive` with the source's `(depth, max_depth)`
signature. -/
def expandRecursive (al : AliasReg) (command : Str) (seen : List Str)
    (depth maxDepth : Nat) : Str :=
  expandRecursiveFuel al (maxDepth - depth) command seen

/-- `AliasRegistry.expand(command, recursive=True, max_depth=10)`. -/
def expandAliases (al : AliasReg) (command : Str) (recursive : Bool)
    (maxDepth : Nat) : Str :=
  if command = [] ∨ command.all isSpaceChar then command
  else
    match pySplit1 command with
    | none => command
    | some (cmd, rest) =>
      match dictGet al cmd with
      | none => command
      | some expansion =>
        if !recursive then expansion ++ (if rest ≠ [] then ' ' :: rest else [])
        else expandRecursive al command [] 0 maxDepth

/-- Registry built by `define("l","ls"); define("ll","l -l")`. -/
def regC1 : AliasReg :=
  defineAlias (defineAlias [] (strL "l") (strL "ls")) (strL "ll") (strL "l -l")

/-- Registry built by `define("a","b"); define("b","a")` (a 2-cycle). -/
def regCyc : AliasReg :=
  defineAlias (defineAlias [] (strL "a") (strL "b")) (strL "b") (strL "a")

/-! ## VariableManager (`agfs_shell/variable_manager.py`) -/

/-- A local variable scope: one Python dict on the `local_scopes` stack. -/
abbrev Scope := List (Str × Str)

/-- The global environment dict; it is only ever accessed by key, so it is
modelled as a function. -/
abbrev Env := Str → Option Str

/-- Python truthiness of an `env.get(k)` result: `None` and `""` are falsy,
every other string is truthy. -/
def truthy : Option Str → Bool
  | none => false
  | some s => !s.isEmpty

/-- Assignment `env[k] = v` on the keyed-access dict model. -/
def envSet (e : Env) (key val : Str) : Env :=
  fun k => if k = key then some val else e k

/-- Deletion `del env[k]` on the keyed-access dict model. -/
def envDel (e : Env) (key : Str) : Env :=
  fun k => if k = key then none else e k

/-- The special key `"_function_depth"`. -/
def fdKey : Str := strL "_function_depth"

/-- Python `f"_local_{var_name}"`. -/
def localKey (name : Str) : Str := strL "_local_" ++ name

/-- Decimal digits of a natural number, most significant first, as Python
`str` produces them (minimal form, `"0"` for zero). -/
def natDecChars (n : Nat) : Str :=
  if n = 0 then ['0']
  else ((Nat.digits 10 n).map (fun d => Char.ofNat (48 + d))).reverse

/-- Python `str(code)` for an `int`: optional `-` sign followed by the
decimal digits. -/
def pyStrInt (i : Int) : Str :=
  if i < 0 then '-' :: natDecChars i.natAbs else natDecChars i.toNat

/-- Value of `c` as a decimal digit (`ord(c) - ord('0')`). -/
def charToDigit (c : Char) : Nat := c.toNat - 48

/-- Parse a non-empty all-digit string as a natural number. -/
def parseDecNat (cs : Str) : Option Nat :=
  if cs ≠ [] ∧ cs.all Char.isDigit then
    some (cs.foldl (fun acc c => acc * 10 + charToDigit c) 0)
  else none

/-- Python `int(s)` restricted to the optional-sign decimal forms that
`str(int)` produces (every other input is a `ValueError`, i.e. `none`). -/
def pyParseInt (cs : Str) : Option Int :=
  match cs with
  | [] => none
  | c :: rest =>
    if c = '-' then (parseDecNat rest).map (fun n => -(n : Int))
    else if c = '+' then (parseDecNat rest).map (fun n => (n : Int))
    else (parseDecNat (c :: rest)).map (fun n => (n : Int))

/-- State of a `VariableManager`: the global `env` dict and the
`local_scopes` stack, innermost scope at the head. -/
structure VM where
  env : Env
  localScopes : List Scope

/-- POSIX `os.path.join(a, b)` for a single extra component (CPython
`posixpath.join`). -/
def pjoin (a b : Str) : Str :=
  if b.take 1 = ['/'] then b
  else if a = [] ∨ a.getLast? = some '/' then a ++ b
  else a ++ '/' :: b

/-- `VariableManager.__init__(initial_env)`.  The Python code starts from an
empty dict, merges `initial_env` over it, then forces `env["?"] = "0"` and
`env.setdefault("HISTFILE", os.path.join(home, ".agfs_shell_history"))`;
`home` (the result of `os.path.expanduser("~")`) is passed explicitly since
it comes from the outside environment. -/
def vmInit (initialEnv : Option Env) (home : Str) : VM :=
  let env0 : Env := fun k =>
    match initialEnv with
    | none => none
    | some f => f k
  let env1 := envSet env0 (strL "?") (strL "0")
  let env2 :=
    if env1 (strL "HISTFILE") = none then
      envSet env1 (strL "HISTFILE") (pjoin home (strL ".agfs_shell_history"))
    else env1
  { env := env2, localScopes := [] }

/-- Lookup of a variable in the scope stack, innermost scope first (the
Python `for scope in reversed(self.local_scopes)` loop). -/
def scopesLookup (scopes : List Scope) (name : Str) : Option Str :=
  match scopes with
  | [] => none
  | s :: rest =>
    match dictGet s name with
    | some v => some v
    | none => scopesLookup rest name

/-- `VariableManager.get(var_name, default=None)`: a `_local_` shadow wins
when `_function_depth` is truthy, then local scopes innermost-first, then
`env.get(var_name, default or "")`. -/
def vmGet (vm : VM) (varName : Str) (default : Option Str) : Str :=
  match (if truthy (vm.env fdKey) then vm.env (localKey varName) else none) with
  | some v => v
  | none =>
    match scopesLookup vm.localScopes varName with
    | some v => v
    | none => (vm.env varName).getD (default.getD [])

/-- `VariableManager.set(var_name, value, local=False)`. -/
def vmSet (vm : VM) (varName value : Str) (localFlag : Bool) : VM :=
  if localFlag ∧ vm.localScopes ≠ [] then
    { env := envSet vm.env (localKey varName) value,
      localScopes :=
        match vm.localScopes with
        | [] => []
        | s :: rest => dictSet s varName value :: rest }
  else if truthy (vm.env fdKey) ∧ (vm.env (localKey varName)).isSome then
    { vm with env := envSet vm.env (localKey varName) value }
  else
    { vm with env := envSet vm.env varName value }

/-- `VariableManager.push_scope()`. -/
def vmPushScope (vm : VM) : VM :=
  { vm with localScopes := [] :: vm.localScopes }

/-- `VariableManager.pop_scope()`: raises `IndexError` on an empty stack
(the `.error` case, which carries the Python message and leaves no mutated
state behind); otherwise pops the innermost scope, deletes the `_local_`
shadow of every variable of that scope from `env`, and returns the popped
scope together with the new manager state. -/
def vmPopScope (vm : VM) : Except Str (Scope × VM) :=
  match vm.localScopes with
  | [] => .error (strL "Cannot pop from empty scope stack")
  | scope :: rest =>
    let env2 := scope.foldl
      (fun e kv =>
        if (e (localKey kv.1)).isSome then envDel e (localKey kv.1) else e)
      vm.env
    .ok (scope, { env := env2, localScopes := rest })

/-- `VariableManager.set_exit_code(code)`: `env["?"] = str(code)`. -/
def setExitCode (vm : VM) (code : Int) : VM :=
  { vm with env := envSet vm.env (strL "?") (pyStrInt code) }

/-- `VariableManager.get_exit_code()`: `int(env.get("?", "0"))` with a
`ValueError` mapped to `0`. -/
def getExitCode (vm : VM) : Int :=
  (pyParseInt ((vm.env (strL "?")).getD (strL "0"))).getD 0

/-! ## CommandContext (`agfs_shell/context.py`)

Modelled fields: `env` and `local_scopes` (the fields the claims touch);
`cwd`, `filesystem`, `functions`, `aliases` and the `_shell` back reference
do not interact with them and are omitted.  `expand_variables` is modelled
in its no-`_shell` branch, as the claims require. -/

structure Ctx where
  env : Env
  localScopes : List Scope

/-- `CommandContext.get_variable(name)`: local scopes innermost-first, then
`env.get(name)` (which may be `None`). -/
def ctxGetVariable (ctx : Ctx) (name : Str) : Option Str :=
  match scopesLookup ctx.localScopes name with
  | some v => some v
  | none => ctx.env name

/-- `CommandContext.set_variable(name, value, local=False)`. -/
def ctxSetVariable (ctx : Ctx) (name value : Str) (localFlag : Bool) : Ctx :=
  if localFlag ∧ ctx.localScopes ≠ [] then
    { ctx with
      localScopes :=
        match ctx.localScopes with
        | [] => []
        | s :: rest => dictSet s name value :: rest }
  else
    { ctx with env := envSet ctx.env name value }

/-- `CommandContext.push_local_scope()`. -/
def ctxPushLocalScope (ctx : Ctx) : Ctx :=
  { ctx with localScopes := [] :: ctx.localScopes }

/-- `CommandContext.pop_local_scope()`: a silent no-op when the stack is
empty. -/
def ctxPopLocalScope (ctx : Ctx) : Ctx :=
  match ctx.localScopes with
  | [] => ctx
  | _ :: rest => { ctx with localScopes := rest }

/-- Character class `[a-zA-Z_]` of the variable regexes. -/
def isIdentStart (c : Char) : Bool := c.isAlpha || (c == '_')

/-- Character class `[a-zA-Z0-9_]` of the variable regexes. -/
def isIdentCont (c : Char) : Bool := isIdentStart c || c.isDigit

/-- Attempt to match `{([a-zA-Z_][a-zA-Z0-9_]*)}` at the front of `rest`
(the part of the braced-variable regex after `${`), returning the captured
name and the remainder after `}`. -/
def bracedMatch (rest : Str) : Option (Str × Str) :=
  match rest with
  | [] => none
  | c :: r2 =>
    if isIdentStart c then
      match r2.dropWhile isIdentCont with
      | '}' :: r3 => some (c :: r2.takeWhile isIdentCont, r3)
      | _ => none
    else none

/-- One `re.sub` pass for the pattern `\$\{([a-zA-Z_][a-zA-Z0-9_]*)\}`:
leftmost non-overlapping matches are replaced by `get nm`, scanning left to
right; on a failed match the engine advances one position.  The fuel is an
upper bound on the number of scan steps (each step consumes at least one
character, so `s.length` steps always suffice; the fuel-0 fallback is
unreachable from the wrapper below). -/
def subBracedFuel (get : Str → Str) : Nat → Str → Str
  | 0, s => s
  | _ + 1, [] => []
  | f + 1, c :: rest =>
    if c = '$' then
      match rest with
      | [] => c :: subBracedFuel get f rest
      | c2 :: r2 =>
        if c2 = '{' then
          match bracedMatch r2 with
          | some (nm, r3) => get nm ++ subBracedFuel get f r3
          | none => '$' :: subBracedFuel get f (c2 :: r2)
        else c :: subBracedFuel get f rest
    else c :: subBracedFuel get f rest

/-- `re.sub` of the braced-variable pattern over a whole string. -/
def subBraced (get : Str → Str) (s : Str) : Str :=
  subBracedFuel get s.length s

/-- One `re.sub` pass for the pattern `\$([a-zA-Z_][a-zA-Z0-9_]*)` (same
scanning discipline as `subBracedFuel`). -/
def subSimpleFuel (get : Str → Str) : Nat → Str → Str
  | 0, s => s
  | _ + 1, [] => []
  | f + 1, c :: rest =>
    if c = '$' then
      match rest with
      | [] => c :: subSimpleFuel get f rest
      | c2 :: r2 =>
        if isIdentStart c2 then
          get (c2 :: r2.takeWhile isIdentCont) ++
            subSimpleFuel get f (r2.dropWhile isIdentCont)
        else c :: subSimpleFuel get f rest
    else c :: subSimpleFuel get f rest

/-- `re.sub` of the simple-variable pattern over a whole string. -/
def subSimple (get : Str → Str) (s : Str) : Str :=
  subSimpleFuel get s.length s

/-- `CommandContext.expand_variables(text)` in the basic (no `_shell`)
branch: first the `${VAR}` pass, then the `$VAR` pass, each replacement
being `self.get_variable(var_name) or ''`. -/
def ctxExpandVariables (ctx : Ctx) (text : Str) : Str :=
  let get := fun nm => (ctxGetVariable ctx nm).getD []
  subSimple get (subBraced get text)

/-! ## Exceptions (`agfs_shell/exceptions.py`)

Each constructor is modelled as a function producing the claim-relevant data
carried by every `ShellError`: the human-readable message and the numeric
exit code.  Subclass-specific extra attributes (`path`, `command`, `line`,
`position`, ...) never feed back into `message`/`exit_code` and are omitted. -/

structure ExcInfo where
  message : Str
  exitCode : Int

/-- `ShellError.__init__(message, exit_code)`. -/
def mkShellError (message : Str) (exitCode : Int) : ExcInfo :=
  { message := message, exitCode := exitCode }

/-- `ShellError(message)` with the signature's default `exit_code=1`. -/
def mkShellErrorDefault (message : Str) : ExcInfo := mkShellError message 1

/-- `CommandError.__init__(command, message, exit_code)` (calls
`super().__init__(message, exit_code)`). -/
def mkCommandError (command message : Str) (exitCode : Int) : ExcInfo :=
  mkShellError message exitCode

/-- `CommandNotFoundError(command)`: message
`f"{command}: command not found"`, `exit_code=127`. -/
def mkCommandNotFoundError (command : Str) : ExcInfo :=
  mkCommandError command (command ++ strL ": command not found") 127

/-- `CommandSyntaxError(command, details)`: message
`f"{command}: {details}"`, `exit_code=2`. -/
def mkCommandSyntaxError (command details : Str) : ExcInfo :=
  mkCommandError command (command ++ strL ": " ++ details) 2

/-- `ParsingError.__init__(message, line=None, position=None)`: calls
`super().__init__(message, exit_code=2)`. -/
def mkParsingError (message : Str) (line : Option Str)
    (position : Option Int) : ExcInfo :=
  mkShellError message 2

/-- `UnmatchedQuoteError(line, quote_char)`. -/
def mkUnmatchedQuoteError (line quoteChar : Str) : ExcInfo :=
  mkParsingError (strL "Unmatched " ++ quoteChar ++ strL " in command")
    (some line) none

/-- `UnmatchedBracketError(line, bracket_char)`. -/
def mkUnmatchedBracketError (line bracketChar : Str) : ExcInfo :=
  mkParsingError (strL "Unmatched " ++ bracketChar ++ strL " in command")
    (some line) none

/-- `InvalidSyntaxError(line, details)`. -/
def mkInvalidSyntaxError (line details : Str) : ExcInfo :=
  mkParsingError (strL "Syntax error: " ++ details) (some line) none

/-! ## PathManager (`agfs_shell/path_manager.py`) -/

/-- Python `str.split(sep)` for a one-character separator (as used by
CPython `posixpath.normpath` via `path.split('/')`). -/
def splitOnChar (sep : Char) : Str → List Str
  | [] => [[]]
  | c :: rest =>
    if c = sep then [] :: splitOnChar sep rest
    else
      match splitOnChar sep rest with
      | [] => [[c]]
      | h :: t => (c :: h) :: t

/-- Python `"/".join(comps)`. -/
def joinSlash : List Str → Str
  | [] => []
  | [c] => c
  | c :: rest => c ++ '/' :: joinSlash rest

/-- One step of the component loop of CPython `posixpath.normpath`; `acc`
is `new_comps` with the most recent component at the head (Python appends
to and pops from the right end), so Python's `new_comps[-1]` is `acc.head?`,
`append` is `cons` and `pop` is `tail`. -/
def normStep (initialSlashes : Nat) (acc : List Str) (comp : Str) :
    List Str :=
  if comp = [] ∨ comp = ['.'] then acc
  else if comp ≠ ['.', '.'] ∨ (initialSlashes = 0 ∧ acc = [])
      ∨ (acc ≠ [] ∧ acc.head? = some ['.', '.']) then comp :: acc
  else if acc ≠ [] then acc.tail
  else acc

/-- Number of leading slashes CPython `posixpath.normpath` preserves: one
or two (POSIX treats exactly two leading slashes specially), never three or
more; zero for a relative path. -/
def initialSlashes (p : Str) : Nat :=
  if p.take 1 = ['/'] then
    if p.take 2 = ['/', '/'] ∧ ¬(p.take 3 = ['/', '/', '/']) then 2
    else 1
  else 0

/-- Reassembly step of `posixpath.normpath`:
`'/' * initial_slashes + '/'.join(comps)`. -/
def normAssemble (k : Nat) (comps : List Str) : Str :=
  List.replicate k '/' ++ joinSlash comps

/-- CPython `posixpath.normpath` (`os.path.normpath` on POSIX): empty input
gives `"."`, one or two (but not three or more) leading slashes are
preserved, `.`/empty components vanish, and `..` pops a previous component
except at an absolute root. -/
def normpath (p : Str) : Str :=
  if p = [] then ['.']
  else
    let res := normAssemble (initialSlashes p)
      (((splitOnChar '/' p).foldl (normStep (initialSlashes p)) []).reverse)
    if res = [] then ['.'] else res

/-- A path component is plain when it is nonempty, not `.`, not `..`, and
holds no slash: the shape of every component of a normalised path. -/
def plainComp (c : Str) : Prop :=
  c ≠ [] ∧ c ≠ ['.'] ∧ c ≠ ['.', '.'] ∧ '/' ∉ c

/-- Every component of the list is plain. -/
def plainAll (cs : List Str) : Prop := ∀ c ∈ cs, plainComp c

/-- Python `path.lstrip("/")`. -/
def lstripSlash (s : Str) : Str := s.dropWhile (fun c => c = '/')

/-- State of a `PathManager`: the virtual current working directory and the
optional chroot root. -/
structure PM where
  cwd : Str
  chrootRoot : Option Str

/-- `PathManager.resolve_path(path)`. -/
def resolvePath (pm : PM) (path : Str) : Str :=
  let path := if path = [] then pm.cwd else path
  match pm.chrootRoot with
  | none =>
    if path.take 1 = ['/'] then normpath path
    else normpath (pjoin pm.cwd path)
  | some root =>
    let virt := if path.take 1 = ['/'] then path else pjoin pm.cwd path
    let virt2 := normpath virt
    let virt3 := if virt2.take 1 = ['/'] then virt2 else '/' :: virt2
    normpath (pjoin root (lstripSlash virt3))

/-- C1: with `l -> ls` and `ll -> l -l`, `expand("ll /tmp")` under the default
arguments (`recursive=True`, `max_depth=10`) returns exactly `"ls -l /tmp"`. -/
theorem C1_alias_chain_expansion :
    expandAliases regC1 (strL "ll /tmp") true 10 = strL "ls -l /tmp" := by
  decide

theorem cyc_fuel_a (n : Nat) :
    expandRecursiveFuel regCyc n (strL "a") [strL "b", strL "a"] = strL "a" := by
  cases n with
  | zero => rfl
  | succ m => rfl

theorem cyc_fuel_b (n : Nat) :
    expandRecursiveFuel regCyc (n + 1) (strL "b") [strL "a"] = strL "a" := by
  change expandRecursiveFuel regCyc n (strL "a") [strL "b", strL "a"] ++ [] = _
  rw [cyc_fuel_a, List.append_nil]

/-- C2: on the cyclic registry `a -> b -> a`, `expand("a")` terminates for
every `max_depth` and returns either `"a"` or `"b"`: cycle detection (the
`seen` set) and the depth cap each cut the recursion off and hand back the
partially expanded string.  (Termination for every registry, command and
depth bound is built into the model: `expandRecursiveFuel` recurses on the
strictly decreasing fuel `max_depth - depth`, mirroring the source's
`depth >= max_depth` guard, so the embedded `expand` is a total function.) -/
theorem C2_alias_cycle_terminates (maxDepth : Nat) :
    expandAliases regCyc (strL "a") true maxDepth = strL "a" ∨
    expandAliases regCyc (strL "a") true maxDepth = strL "b" := by
  match maxDepth with
  | 0 => left; decide
  | 1 => right; decide
  | (n + 2) =>
    left
    change expandRecursiveFuel regCyc (n + 1) (strL "b") [strL "a"] ++ [] = _
    rw [cyc_fuel_b, List.append_nil]

/-! ## Lemmas about Python `split(None, 1)` -/

theorem takeWhile_append_of_all (p : Char → Bool) (a b : Str)
    (h : ∀ c ∈ a, p c = true) :
    (a ++ b).takeWhile p = a ++ b.takeWhile p := by
  induction a with
  | nil => simp
  | cons c t ih =>
    have hc := h c (by simp)
    simp [List.takeWhile_cons, hc, ih (fun c hc2 => h c (by simp [hc2]))]

theorem dropWhile_append_of_all (p : Char → Bool) (a b : Str)
    (h : ∀ c ∈ a, p c = true) :
    (a ++ b).dropWhile p = b.dropWhile p := by
  induction a with
  | nil => simp
  | cons c t ih =>
    simp only [List.cons_append, List.dropWhile_cons, h c (by simp)]
    exact ih (fun c hc => h c (by simp [hc]))

theorem dropWhile_cons_of_neg (p : Char → Bool) (c : Char) (t : Str)
    (h : p c = false) : (c :: t).dropWhile p = c :: t := by
  simp [List.dropWhile_cons, h]

theorem takeWhile_all_of_all (p : Char → Bool) (a : Str)
    (h : ∀ c ∈ a, p c = true) : a.takeWhile p = a :=
  List.takeWhile_eq_self_iff.mpr h

theorem dropWhile_all_of_all (p : Char → Bool) (a : Str)
    (h : ∀ c ∈ a, p c = true) : a.dropWhile p = [] := by
  induction a with
  | nil => simp
  | cons c t ih =>
    simp only [List.dropWhile_cons, h c (by simp)]
    exact ih (fun c hc => h c (by simp [hc]))

theorem pySplit1_word (w : Str) (hw : w ≠ [])
    (hwns : ∀ c ∈ w, isSpaceChar c = false) :
    pySplit1 w = some (w, []) := by
  obtain ⟨wh, wt, rfl⟩ : ∃ wh wt, w = wh :: wt := by
    cases w with
    | nil => exact absurd rfl hw
    | cons a b => exact ⟨a, b, rfl⟩
  unfold pySplit1
  rw [dropWhile_cons_of_neg _ _ _ (hwns wh (by simp))]
  have ht : (wh :: wt).takeWhile (fun c => !(isSpaceChar c)) = wh :: wt :=
    takeWhile_all_of_all _ _ (fun c hc => by simp [hwns c hc])
  have hd : (wh :: wt).dropWhile (fun c => !(isSpaceChar c)) = [] :=
    dropWhile_all_of_all _ _ (fun c hc => by simp [hwns c hc])
  simp [ht, hd]

theorem pySplit1_decomp (lead w sep R : Str)
    (hlead : ∀ c ∈ lead, isSpaceChar c = true)
    (hw : w ≠ []) (hwns : ∀ c ∈ w, isSpaceChar c = false)
    (hsep : sep ≠ []) (hseps : ∀ c ∈ sep, isSpaceChar c = true)
    (hRd : R.dropWhile isSpaceChar = R) :
    pySplit1 (lead ++ w ++ sep ++ R) = some (w, R) := by
  obtain ⟨wh, wt, rfl⟩ : ∃ wh wt, w = wh :: wt := by
    cases w with
    | nil => exact absurd rfl hw
    | cons a b => exact ⟨a, b, rfl⟩
  obtain ⟨sh, st, rfl⟩ : ∃ sh st, sep = sh :: st := by
    cases sep with
    | nil => exact absurd rfl hsep
    | cons a b => exact ⟨a, b, rfl⟩
  unfold pySplit1
  rw [show lead ++ (wh :: wt) ++ (sh :: st) ++ R
        = lead ++ ((wh :: wt) ++ ((sh :: st) ++ R)) by simp]
  rw [dropWhile_append_of_all _ _ _ hlead]
  rw [show (wh :: wt) ++ ((sh :: st) ++ R) = wh :: (wt ++ ((sh :: st) ++ R))
        from rfl]
  rw [dropWhile_cons_of_neg _ _ _ (hwns wh (by simp))]
  have ht : (wh :: (wt ++ ((sh :: st) ++ R))).takeWhile (fun c => !(isSpaceChar c))
      = wh :: wt := by
    rw [show wh :: (wt ++ ((sh :: st) ++ R)) = (wh :: wt) ++ ((sh :: st) ++ R)
          from rfl]
    rw [takeWhile_append_of_all _ _ _ (fun c hc => by simp [hwns c hc])]
    simp [List.takeWhile_cons, hseps sh (by simp)]
  have hd : (wh :: (wt ++ ((sh :: st) ++ R))).dropWhile (fun c => !(isSpaceChar c))
      = (sh :: st) ++ R := by
    rw [show wh :: (wt ++ ((sh :: st) ++ R)) = (wh :: wt) ++ ((sh :: st) ++ R)
          from rfl]
    rw [dropWhile_append_of_all _ _ _ (fun c hc => by simp [hwns c hc])]
    exact dropWhile_cons_of_neg _ _ _ (by simp [hseps sh (by simp)])
  have hd2 : ((sh :: st) ++ R).dropWhile isSpaceChar = R := by
    rw [dropWhile_append_of_all _ _ _ hseps, hRd]
  simp only [List.cons_append] at ht hd hd2 ⊢
  simp only [ht, hd, hd2]

theorem expandAliases_eq_of_split (al : AliasReg) (command cmd rest : Str)
    (recursive : Bool) (maxDepth : Nat)
    (hne : ¬(command = [] ∨ command.all isSpaceChar = true))
    (hsplit : pySplit1 command = some (cmd, rest)) :
    expandAliases al command recursive maxDepth =
      match dictGet al cmd with
      | none => command
      | some expansion =>
        if !recursive then expansion ++ (if rest ≠ [] then ' ' :: rest else [])
        else expandRecursive al command [] 0 maxDepth := by
  unfold expandAliases
  rw [if_neg hne, hsplit]

theorem expandRecursiveFuel_succ_eq (al : AliasReg) (n : Nat)
    (command cmd rest : Str) (seen : List Str)
    (hsplit : pySplit1 command = some (cmd, rest)) :
    expandRecursiveFuel al (n + 1) command seen =
      match dictGet al cmd with
      | none => command
      | some expansion =>
        if cmd ∈ seen then command
        else expandRecursiveFuel al n expansion (cmd :: seen) ++
          (if rest ≠ [] then ' ' :: rest else []) := by
  have h1 : expandRecursiveFuel al (n + 1) command seen =
      match pySplit1 command with
      | none => command
      | some (cmd, rest) =>
        match dictGet al cmd with
        | none => command
        | some expansion =>
          if cmd ∈ seen then command
          else expandRecursiveFuel al n expansion (cmd :: seen) ++
            (if rest ≠ [] then ' ' :: rest else []) := rfl
  rw [h1, hsplit]

/-- C5: `expand` rewrites only the first whitespace-delimited word.  For any
input of the form `lead ++ w ++ sep ++ (rh :: rt)` (optional leading
whitespace, the first word, the whitespace run after it, and a remainder
starting with a non-space character), the result is either the input itself
(no alias applied, or the depth cap fired immediately) or the expansion of
the first word alone, with the remainder appended byte-for-byte unchanged
after a single separating space. -/
theorem C5_expand_first_word_frame (al : AliasReg) (recursive : Bool)
    (maxDepth : Nat) (lead w sep rt : Str) (rh : Char)
    (hlead : ∀ c ∈ lead, isSpaceChar c = true)
    (hw : w ≠ []) (hwns : ∀ c ∈ w, isSpaceChar c = false)
    (hsep : sep ≠ []) (hseps : ∀ c ∈ sep, isSpaceChar c = true)
    (hrh : isSpaceChar rh = false) :
    expandAliases al (lead ++ w ++ sep ++ rh :: rt) recursive maxDepth
      = lead ++ w ++ sep ++ rh :: rt ∨
    expandAliases al (lead ++ w ++ sep ++ rh :: rt) recursive maxDepth
      = expandAliases al w recursive maxDepth ++ ' ' :: rh :: rt := by
  obtain ⟨wh, wt, hwc⟩ : ∃ wh wt, w = wh :: wt := by
    cases w with
    | nil => exact absurd rfl hw
    | cons a b => exact ⟨a, b, rfl⟩
  have hsplit : pySplit1 (lead ++ w ++ sep ++ rh :: rt) = some (w, rh :: rt) :=
    pySplit1_decomp lead w sep (rh :: rt) hlead hw hwns hsep hseps
      (dropWhile_cons_of_neg _ _ _ hrh)
  have hsplitw : pySplit1 w = some (w, []) := pySplit1_word w hw hwns
  have hallw : w.all isSpaceChar = false := by
    subst hwc
    simp [List.all_cons, hwns wh (by simp)]
  have hall : (lead ++ w ++ sep ++ rh :: rt).all isSpaceChar = false := by
    simp only [List.all_append, hallw, Bool.and_false, Bool.false_and]
  have hne : lead ++ w ++ sep ++ rh :: rt ≠ [] := by
    subst hwc; simp
  have hnw : ¬(w = [] ∨ w.all isSpaceChar = true) := by
    rw [hallw]; simp [hw]
  have hnall : ¬(lead ++ w ++ sep ++ rh :: rt = []
      ∨ (lead ++ w ++ sep ++ rh :: rt).all isSpaceChar = true) := by
    rw [hall]; simp [hne]
  rw [expandAliases_eq_of_split al _ w (rh :: rt) recursive maxDepth hnall hsplit]
  rw [expandAliases_eq_of_split al w w [] recursive maxDepth hnw hsplitw]
  cases hget : dictGet al w with
  | none => left; rfl
  | some expansion =>
    cases recursive with
    | false =>
      right
      simp
    | true =>
      simp only [Bool.not_true, Bool.false_eq_true, if_false]
      cases maxDepth with
      | zero => left; rfl
      | succ n =>
        right
        unfold expandRecursive
        simp only [Nat.sub_zero]
        rw [expandRecursiveFuel_succ_eq al n _ w (rh :: rt) [] hsplit]
        rw [expandRecursiveFuel_succ_eq al n w w [] [] hsplitw]
        rw [hget]
        simp

theorem C5_expand_first_word_frame_witness :
    (∀ c ∈ ([] : Str), isSpaceChar c = true) ∧
    (strL "ll" ≠ [] ∧ ∀ c ∈ strL "ll", isSpaceChar c = false) ∧
    ([' '] ≠ ([] : Str) ∧ ∀ c ∈ [' '], isSpaceChar c = true) ∧
    isSpaceChar '/' = false ∧
    (expandAliases regC1 (strL "ll /tmp") true 10 = strL "ll /tmp" ∨
     expandAliases regC1 (strL "ll /tmp") true 10
       = expandAliases regC1 (strL "ll") true 10 ++ ' ' :: '/' :: strL "tmp") :=
  ⟨by decide, ⟨by decide, by decide⟩, ⟨by decide, by decide⟩, by decide,
    C5_expand_first_word_frame regC1 true 10 [] (strL "ll") [' ']
      (strL "tmp") '/' (by decide) (by decide) (by decide) (by decide)
      (by decide) (by decide)⟩

/-! ## Decimal representation roundtrip (for `set_exit_code`/`get_exit_code`) -/

theorem digitChar_isDigit (d : Nat) (h : d < 10) :
    (Char.ofNat (48 + d)).isDigit = true := by
  interval_cases d <;> decide

theorem charToDigit_ofNat (d : Nat) (h : d < 10) :
    charToDigit (Char.ofNat (48 + d)) = d := by
  interval_cases d <;> decide

theorem foldr_digit_chars (L : List Nat) (h : ∀ d ∈ L, d < 10) :
    List.foldr (fun c acc => acc * 10 + charToDigit c) 0
        (L.map (fun d => Char.ofNat (48 + d))) = Nat.ofDigits 10 L := by
  induction L with
  | nil => simp
  | cons d t ih =>
    simp only [List.map_cons, List.foldr_cons, Nat.ofDigits_cons]
    rw [ih (fun e he => h e (by simp [he])), charToDigit_ofNat d (h d (by simp))]
    ring

theorem parseDecNat_natDecChars (n : Nat) :
    parseDecNat (natDecChars n) = some n := by
  by_cases h0 : n = 0
  · subst h0; decide
  · have hlt : ∀ d ∈ Nat.digits 10 n, d < 10 :=
      fun d hd => Nat.digits_lt_base (by norm_num) hd
    have hne : Nat.digits 10 n ≠ [] := Nat.digits_ne_nil_iff_ne_zero.mpr h0
    unfold natDecChars
    rw [if_neg h0]
    unfold parseDecNat
    have hall : (((Nat.digits 10 n).map
        (fun d => Char.ofNat (48 + d))).reverse).all Char.isDigit = true := by
      rw [List.all_eq_true]
      intro c hc
      rw [List.mem_reverse] at hc
      obtain ⟨d, hd, rfl⟩ := List.mem_map.mp hc
      exact digitChar_isDigit d (hlt d hd)
    have hne2 : ((Nat.digits 10 n).map
        (fun d => Char.ofNat (48 + d))).reverse ≠ [] := by simp [hne]
    rw [if_pos ⟨hne2, hall⟩, List.foldl_reverse, foldr_digit_chars _ hlt,
      Nat.ofDigits_digits]

theorem natDecChars_head_digit (n : Nat) :
    ∃ c rest, natDecChars n = c :: rest ∧ c.isDigit = true := by
  by_cases h0 : n = 0
  · subst h0; exact ⟨'0', [], by decide, by decide⟩
  · have hlt : ∀ d ∈ Nat.digits 10 n, d < 10 :=
      fun d hd => Nat.digits_lt_base (by norm_num) hd
    have hne : Nat.digits 10 n ≠ [] := Nat.digits_ne_nil_iff_ne_zero.mpr h0
    cases hrev : ((Nat.digits 10 n).map (fun d => Char.ofNat (48 + d))).reverse with
    | nil =>
      exfalso
      have : (Nat.digits 10 n).map (fun d => Char.ofNat (48 + d)) = [] :=
        List.reverse_eq_nil_iff.mp hrev
      simp [hne] at this
    | cons c rest =>
      refine ⟨c, rest, ?_, ?_⟩
      · unfold natDecChars; rw [if_neg h0, hrev]
      · have hcmem : c ∈ ((Nat.digits 10 n).map
            (fun d => Char.ofNat (48 + d))).reverse := by rw [hrev]; simp
        rw [List.mem_reverse] at hcmem
        obtain ⟨d, hd, rfl⟩ := List.mem_map.mp hcmem
        exact digitChar_isDigit d (hlt d hd)

theorem isDigit_ne_minus (c : Char) (h : c.isDigit = true) : c ≠ '-' := by
  intro he; subst he; exact absurd h (by decide)

theorem isDigit_ne_plus (c : Char) (h : c.isDigit = true) : c ≠ '+' := by
  intro he; subst he; exact absurd h (by decide)

theorem pyParseInt_cons (c : Char) (rest : Str) :
    pyParseInt (c :: rest) =
      if c = '-' then (parseDecNat rest).map (fun n => -(n : Int))
      else if c = '+' then (parseDecNat rest).map (fun n => (n : Int))
      else (parseDecNat (c :: rest)).map (fun n => (n : Int)) := rfl

theorem pyParseInt_pyStrInt (i : Int) : pyParseInt (pyStrInt i) = some i := by
  by_cases hneg : i < 0
  · unfold pyStrInt
    rw [if_pos hneg, pyParseInt_cons, if_pos rfl, parseDecNat_natDecChars]
    simp [abs_of_neg hneg]
  · unfold pyStrInt
    rw [if_neg hneg]
    obtain ⟨c, rest, hcr, hdig⟩ := natDecChars_head_digit i.toNat
    rw [hcr, pyParseInt_cons,
      if_neg (isDigit_ne_minus c hdig), if_neg (isDigit_ne_plus c hdig),
      ← hcr, parseDecNat_natDecChars]
    simp [Int.toNat_of_nonneg (by omega : (0 : Int) ≤ i)]

/-- C6: immediately after `__init__` (for every `initial_env`, including one
that itself binds `"?"`, and every home directory) the entry `"?"` holds
`"0"`; after every `set_exit_code(code)` the entry `"?"` holds the decimal
string of `code`, and `get_exit_code` recovers exactly `code`. -/
theorem C6_exit_code_invariant (initialEnv : Option Env) (home : Str)
    (vm : VM) (code : Int) :
    (vmInit initialEnv home).env (strL "?") = some (strL "0") ∧
    (setExitCode vm code).env (strL "?") = some (pyStrInt code) ∧
    getExitCode (setExitCode vm code) = code := by
  have hQ : strL "?" ≠ strL "HISTFILE" := by decide
  have hsame : ∀ (e : Env) (k v : Str), envSet e k v k = some v := by
    intro e k v; simp [envSet]
  have hother : ∀ (e : Env) (k v k2 : Str), k2 ≠ k → envSet e k v k2 = e k2 := by
    intro e k v k2 h; simp [envSet, h]
  refine ⟨?_, ?_, ?_⟩
  · simp only [vmInit]
    split
    · rw [hother _ _ _ _ hQ, hsame]
    · rw [hsame]
  · simp only [setExitCode]
    rw [hsame]
  · simp only [getExitCode, setExitCode]
    rw [hsame]
    simp [pyParseInt_pyStrInt]

/-- C4: `VariableManager.pop_scope` on an empty scope stack fails with the
`IndexError` message (before any state is touched), while the sibling
`CommandContext.pop_local_scope` on an empty stack is a silent no-op that
returns the context unchanged. -/
theorem C4_pop_scope_vs_pop_local_scope (vm : VM) (ctx : Ctx)
    (hvm : vm.localScopes = []) (hctx : ctx.localScopes = []) :
    vmPopScope vm = .error (strL "Cannot pop from empty scope stack") ∧
    ctxPopLocalScope ctx = ctx := by
  constructor
  · unfold vmPopScope; rw [hvm]
  · unfold ctxPopLocalScope; rw [hctx]

theorem C4_pop_scope_vs_pop_local_scope_witness :
    ((⟨fun _ => none, []⟩ : VM).localScopes = []) ∧
    ((⟨fun _ => none, []⟩ : Ctx).localScopes = []) ∧
    vmPopScope ⟨fun _ => none, []⟩
      = .error (strL "Cannot pop from empty scope stack") ∧
    ctxPopLocalScope ⟨fun _ => none, []⟩ = (⟨fun _ => none, []⟩ : Ctx) :=
  ⟨rfl, rfl,
    (C4_pop_scope_vs_pop_local_scope ⟨fun _ => none, []⟩ ⟨fun _ => none, []⟩
      rfl rfl).1,
    (C4_pop_scope_vs_pop_local_scope ⟨fun _ => none, []⟩ ⟨fun _ => none, []⟩
      rfl rfl).2⟩

/-! ## Local scope push/set/pop (C3, C9) -/

theorem scopesLookup_none (scopes : List Scope) (x : Str)
    (h : ∀ s ∈ scopes, dictGet s x = none) : scopesLookup scopes x = none := by
  induction scopes with
  | nil => rfl
  | cons s rest ih =>
    unfold scopesLookup
    rw [h s (by simp)]
    exact ih (fun s2 hs2 => h s2 (by simp [hs2]))

theorem localKey_ne_self (x : Str) : localKey x ≠ x := by
  intro h
  have := congrArg List.length h
  simp [localKey, strL] at this
  omega

theorem fdKey_ne_localKey (x : Str) : fdKey ≠ localKey x := by
  intro h
  rw [show localKey x = '_' :: 'l' :: 'o' :: 'c' :: 'a' :: 'l' :: '_' :: x
    from rfl] at h
  simp [fdKey, strL] at h

/-- C3 as written is refuted: with a pre-existing local scope that binds
`x`, the sequence `push_scope(); set(x, w, local=True); pop_scope()` leaves
`get(x)` returning the outer scope's binding, not the global value.  Here
`env = {"x": "1"}`, one local scope binds `x -> "2"`, `w = "3"`: the final
`get("x")` returns `"2"`, not the global `"1"`. -/
theorem C3_local_scope_restore_counterexample :
    ((⟨fun k => if k = strL "x" then some (strL "1") else none,
        [[(strL "x", strL "2")]]⟩ : VM).env (strL "x") = some (strL "1")) ∧
    ((vmPopScope (vmSet (vmPushScope
        ⟨fun k => if k = strL "x" then some (strL "1") else none,
          [[(strL "x", strL "2")]]⟩) (strL "x") (strL "3") true)).map
      (fun p => vmGet p.2 (strL "x") none)) = .ok (strL "2") ∧
    strL "2" ≠ strL "1" :=
  ⟨rfl, rfl, by decide⟩

/-- C3 (amended): for every `VariableManager` in which `x` has global value
`v` and **no existing local scope binds `x`**, the sequence `push_scope();
set(x, w, local=True); pop_scope()` shadows `x` with `w` inside the scope
(`get(x) = w` there) and restores `get(x) = v` after the pop.  (The
no-existing-binding proviso is forced by the counterexample above.) -/
theorem C3_local_scope_shadow_restore (vm : VM) (x v w : Str)
    (hxv : vm.env x = some v)
    (hns : ∀ scope ∈ vm.localScopes, dictGet scope x = none) :
    vmGet (vmSet (vmPushScope vm) x w true) x none = w ∧
    ((vmPopScope (vmSet (vmPushScope vm) x w true)).map
      (fun p => vmGet p.2 x none)) = .ok v := by
  have hset : vmSet (vmPushScope vm) x w true =
      ⟨envSet vm.env (localKey x) w, [(x, w)] :: vm.localScopes⟩ := by
    unfold vmSet vmPushScope
    rw [if_pos ⟨rfl, by simp⟩]
    simp [dictSet]
  have henv2fd : envSet vm.env (localKey x) w fdKey = vm.env fdKey := by
    simp [envSet, fdKey_ne_localKey x]
  have henv2lk : envSet vm.env (localKey x) w (localKey x) = some w := by
    simp [envSet]
  constructor
  · rw [hset]
    unfold vmGet
    simp only [henv2fd, henv2lk]
    cases htr : truthy (vm.env fdKey) with
    | true =>
      simp
    | false =>
      simp only [Bool.false_eq_true, if_false]
      unfold scopesLookup dictGet
      simp
  · rw [hset]
    have hpop : vmPopScope ⟨envSet vm.env (localKey x) w,
        [(x, w)] :: vm.localScopes⟩ =
        .ok ([(x, w)],
          ⟨envDel (envSet vm.env (localKey x) w) (localKey x),
            vm.localScopes⟩) := by
      unfold vmPopScope
      simp [henv2lk]
    rw [hpop]
    simp only [Except.map]
    congr 1
    have henv3 : ∀ k, envDel (envSet vm.env (localKey x) w) (localKey x) k
        = (if k = localKey x then none else vm.env k) := by
      intro k
      by_cases hk : k = localKey x
      · simp [envDel, hk]
      · simp [envDel, envSet, hk]
    unfold vmGet
    dsimp only
    rw [henv3 fdKey, if_neg (fdKey_ne_localKey x), henv3 (localKey x),
      if_pos rfl]
    have hsc : scopesLookup vm.localScopes x = none := scopesLookup_none _ _ hns
    cases htr : truthy (vm.env fdKey) with
    | true => simp [henv3, hsc, Ne.symm (localKey_ne_self x), hxv]
    | false => simp [henv3, hsc, Ne.symm (localKey_ne_self x), hxv]

theorem C3_local_scope_shadow_restore_witness :
    ((⟨fun k => if k = strL "x" then some (strL "1") else none, []⟩ : VM).env
      (strL "x") = some (strL "1")) ∧
    vmGet (vmSet (vmPushScope
      ⟨fun k => if k = strL "x" then some (strL "1") else none, []⟩)
      (strL "x") (strL "3") true) (strL "x") none = strL "3" ∧
    ((vmPopScope (vmSet (vmPushScope
        ⟨fun k => if k = strL "x" then some (strL "1") else none, []⟩)
        (strL "x") (strL "3") true)).map
      (fun p => vmGet p.2 (strL "x") none)) = .ok (strL "1") :=
  ⟨rfl,
    (C3_local_scope_shadow_restore
      ⟨fun k => if k = strL "x" then some (strL "1") else none, []⟩
      (strL "x") (strL "1") (strL "3") rfl (by simp)).1,
    (C3_local_scope_shadow_restore
      ⟨fun k => if k = strL "x" then some (strL "1") else none, []⟩
      (strL "x") (strL "1") (strL "3") rfl (by simp)).2⟩

/-- C9 as written is refuted on the `VariableManager` side: with
`env = {"_local__function_depth": "9"}` (no truthy `_function_depth`, empty
scope stack), `set("_function_depth", "1", local=True)` does write the
global binding, but the subsequent `get("_function_depth")` returns `"9"`
(the stale `_local_` shadow) rather than the value just written. -/
theorem C9_local_fallback_counterexample :
    ((⟨fun k => if k = strL "_local__function_depth" then some (strL "9")
        else none, []⟩ : VM).localScopes = []) ∧
    truthy ((⟨fun k => if k = strL "_local__function_depth" then some (strL "9")
        else none, []⟩ : VM).env fdKey) = false ∧
    (vmSet ⟨fun k => if k = strL "_local__function_depth" then some (strL "9")
        else none, []⟩ (strL "_function_depth") (strL "1") true).env
      (strL "_function_depth") = some (strL "1") ∧
    vmGet (vmSet ⟨fun k => if k = strL "_local__function_depth"
        then some (strL "9") else none, []⟩
      (strL "_function_depth") (strL "1") true) (strL "_function_depth") none
      = strL "9" ∧
    strL "9" ≠ strL "1" :=
  ⟨rfl, rfl, by decide, by decide, by decide⟩

/-- C9 (amended): when the local-scope stack is empty, `_function_depth` is
not truthy in `env`, **and `env` holds no stale `_local_` shadow of `x`**
(the proviso forced by the counterexample above), `set(x, v, local=True)`
silently falls back to writing the global binding and `get(x)` then returns
`v`; `CommandContext.set_variable` behaves the same way with no proviso
needed. -/
theorem C9_local_set_empty_stack_fallback (vm : VM) (x v : Str)
    (hs : vm.localScopes = [])
    (hfd : truthy (vm.env fdKey) = false)
    (hlk : vm.env (localKey x) = none) :
    (vmSet vm x v true).env x = some v ∧
    (vmSet vm x v true).localScopes = [] ∧
    vmGet (vmSet vm x v true) x none = v ∧
    ∀ (ctx : Ctx) (y u : Str), ctx.localScopes = [] →
      (ctxSetVariable ctx y u true).env y = some u ∧
      ctxGetVariable (ctxSetVariable ctx y u true) y = some u := by
  have hset : vmSet vm x v true = { vm with env := envSet vm.env x v } := by
    unfold vmSet
    rw [if_neg (by simp [hs]), if_neg (by simp [hfd])]
  refine ⟨?_, ?_, ?_, ?_⟩
  · rw [hset]; simp [envSet]
  · rw [hset]; simp [hs]
  · rw [hset]
    unfold vmGet
    dsimp only
    have hfd2 : envSet vm.env x v fdKey = (if fdKey = x then some v
        else vm.env fdKey) := by simp [envSet]
    by_cases hfx : fdKey = x
    · rw [hfd2, if_pos hfx]
      cases htv : truthy (some v) with
      | true =>
        have hlk2 : envSet vm.env x v (localKey x) = none := by
          simp [envSet, localKey_ne_self x, hlk]
        rw [if_pos rfl, hlk2, hs]
        simp [scopesLookup, envSet]
      | false =>
        simp only [Bool.false_eq_true, if_false, hs]
        simp [scopesLookup, envSet]
    · rw [hfd2, if_neg hfx, hfd]
      simp only [Bool.false_eq_true, if_false, hs]
      simp [scopesLookup, envSet]
  · intro ctx y u hcs
    have hcset : ctxSetVariable ctx y u true =
        { ctx with env := envSet ctx.env y u } := by
      unfold ctxSetVariable
      rw [if_neg (by simp [hcs])]
    refine ⟨?_, ?_⟩
    · rw [hcset]; simp [envSet]
    · rw [hcset]
      unfold ctxGetVariable
      dsimp only
      rw [hcs]
      simp [scopesLookup, envSet]

theorem C9_local_set_empty_stack_fallback_witness :
    ((⟨fun _ => none, []⟩ : VM).localScopes = []) ∧
    truthy ((⟨fun _ => none, []⟩ : VM).env fdKey) = false ∧
    (vmSet ⟨fun _ => none, []⟩ (strL "x") (strL "1") true).env (strL "x")
      = some (strL "1") ∧
    vmGet (vmSet ⟨fun _ => none, []⟩ (strL "x") (strL "1") true) (strL "x")
      none = strL "1" ∧
    (ctxSetVariable ⟨fun _ => none, []⟩ (strL "y") (strL "2") true).env
      (strL "y") = some (strL "2") ∧
    ctxGetVariable (ctxSetVariable ⟨fun _ => none, []⟩ (strL "y") (strL "2")
      true) (strL "y") = some (strL "2") :=
  ⟨rfl, rfl,
    (C9_local_set_empty_stack_fallback ⟨fun _ => none, []⟩ (strL "x")
      (strL "1") rfl rfl rfl).1,
    (C9_local_set_empty_stack_fallback ⟨fun _ => none, []⟩ (strL "x")
      (strL "1") rfl rfl rfl).2.2.1,
    ((C9_local_set_empty_stack_fallback ⟨fun _ => none, []⟩ (strL "x")
      (strL "1") rfl rfl rfl).2.2.2 ⟨fun _ => none, []⟩ (strL "y") (strL "2")
      rfl).1,
    ((C9_local_set_empty_stack_fallback ⟨fun _ => none, []⟩ (strL "x")
      (strL "1") rfl rfl rfl).2.2.2 ⟨fun _ => none, []⟩ (strL "y") (strL "2")
      rfl).2⟩

/-! ## Variable expansion (C7) -/

theorem subBracedFuel_cons (get : Str → Str) (f : Nat) (c : Char) (rest : Str) :
    subBracedFuel get (f + 1) (c :: rest) =
      if c = '$' then
        match rest with
        | [] => c :: subBracedFuel get f rest
        | c2 :: r2 =>
          if c2 = '{' then
            match bracedMatch r2 with
            | some (nm, r3) => get nm ++ subBracedFuel get f r3
            | none => '$' :: subBracedFuel get f (c2 :: r2)
          else c :: subBracedFuel get f rest
      else c :: subBracedFuel get f rest := rfl

theorem subSimpleFuel_cons (get : Str → Str) (f : Nat) (c : Char) (rest : Str) :
    subSimpleFuel get (f + 1) (c :: rest) =
      if c = '$' then
        match rest with
        | [] => c :: subSimpleFuel get f rest
        | c2 :: r2 =>
          if isIdentStart c2 then
            get (c2 :: r2.takeWhile isIdentCont) ++
              subSimpleFuel get f (r2.dropWhile isIdentCont)
          else c :: subSimpleFuel get f rest
      else c :: subSimpleFuel get f rest := rfl

theorem subSimpleFuel_nil (get : Str → Str) (f : Nat) :
    subSimpleFuel get (f + 1) [] = [] := rfl

theorem isIdentStart_ne_dollar (c : Char) (h : isIdentStart c = true) :
    c ≠ '$' := by
  intro he; subst he; exact absurd h (by decide)

theorem isIdentStart_ne_lbrace (c : Char) (h : isIdentStart c = true) :
    c ≠ '{' := by
  intro he; subst he; exact absurd h (by decide)

theorem isIdentCont_ne_dollar (c : Char) (h : isIdentCont c = true) :
    c ≠ '$' := by
  intro he; subst he; exact absurd h (by decide)

theorem subBracedFuel_no_dollar (get : Str → Str) (f : Nat) (s : Str)
    (h : ∀ c ∈ s, c ≠ '$') : subBracedFuel get f s = s := by
  induction f generalizing s with
  | zero => rfl
  | succ f ih =>
    cases s with
    | nil => rfl
    | cons c rest =>
      rw [subBracedFuel_cons, if_neg (h c (by simp)),
        ih rest (fun c2 hc2 => h c2 (by simp [hc2]))]

theorem subBraced_dollar_ident (get : Str → Str) (xh : Char) (xt : Str)
    (hs : isIdentStart xh = true) (hcont : xt.all isIdentCont = true) :
    subBraced get ('$' :: xh :: xt) = '$' :: xh :: xt := by
  have hnd : ∀ c ∈ xh :: xt, c ≠ '$' := by
    intro c hc
    rcases List.mem_cons.mp hc with hc1 | hc2
    · subst hc1; exact isIdentStart_ne_dollar c hs
    · exact isIdentCont_ne_dollar c (List.all_eq_true.mp hcont c hc2)
  unfold subBraced
  simp only [List.length_cons]
  rw [subBracedFuel_cons, if_pos rfl]
  dsimp only
  rw [if_neg (isIdentStart_ne_lbrace xh hs),
    subBracedFuel_no_dollar get _ (xh :: xt) hnd]

theorem subSimple_dollar_ident (get : Str → Str) (xh : Char) (xt : Str)
    (hs : isIdentStart xh = true) (hcont : xt.all isIdentCont = true) :
    subSimple get ('$' :: xh :: xt) = get (xh :: xt) := by
  unfold subSimple
  simp only [List.length_cons]
  rw [subSimpleFuel_cons, if_pos rfl]
  dsimp only
  rw [if_pos hs,
    takeWhile_all_of_all _ _ (fun c hc => List.all_eq_true.mp hcont c hc),
    dropWhile_all_of_all _ _ (fun c hc => List.all_eq_true.mp hcont c hc),
    subSimpleFuel_nil]
  simp

/-- C7: in a context without an attached shell, with `env = {"USER":
"alice"}`, `expand_variables("Hello $USER")` returns `"Hello alice"`; and for
every context and every valid variable name `X` (identifier head plus
identifier tail) bound in no scope and absent from `env`,
`expand_variables("$X")` returns the empty string — an undefined variable
expands to `""` and never raises. -/
theorem C7_expand_variables_basic :
    ctxExpandVariables
      ⟨fun k => if k = strL "USER" then some (strL "alice") else none, []⟩
      (strL "Hello $USER") = strL "Hello alice" ∧
    ∀ (ctx : Ctx) (xh : Char) (xt : Str),
      isIdentStart xh = true → xt.all isIdentCont = true →
      (∀ s ∈ ctx.localScopes, dictGet s (xh :: xt) = none) →
      ctx.env (xh :: xt) = none →
      ctxExpandVariables ctx ('$' :: xh :: xt) = [] := by
  constructor
  · decide
  · intro ctx xh xt hs hcont hscopes henv
    unfold ctxExpandVariables
    dsimp only
    rw [subBraced_dollar_ident _ xh xt hs hcont,
      subSimple_dollar_ident _ xh xt hs hcont]
    unfold ctxGetVariable
    rw [scopesLookup_none _ _ hscopes]
    rw [henv]
    rfl

theorem C7_expand_variables_basic_witness :
    isIdentStart 'X' = true ∧
    (([] : Str).all isIdentCont = true) ∧
    ctxExpandVariables ⟨fun _ => none, []⟩ (strL "$X") = [] :=
  ⟨by decide, by decide,
    (C7_expand_variables_basic).2 ⟨fun _ => none, []⟩ 'X' []
      (by decide) (by decide) (by simp) rfl⟩

/-- C8: every user-visible error constructor pairs a human-readable message
with the exit code the taxonomy assigns — `CommandNotFoundError` is built
with `exit_code=127`, `CommandSyntaxError` and every `ParsingError`
(including its subclasses `UnmatchedQuoteError`, `UnmatchedBracketError`,
`InvalidSyntaxError`) with `exit_code=2`, and the generic `ShellError`
default is `exit_code=1`. -/
theorem C8_error_message_and_exit_codes (m command details line d2 q b : Str)
    (lineOpt : Option Str) (posOpt : Option Int) :
    (mkShellErrorDefault m).exitCode = 1 ∧
    (mkShellErrorDefault m).message = m ∧
    (mkCommandNotFoundError command).exitCode = 127 ∧
    (mkCommandNotFoundError command).message
      = command ++ strL ": command not found" ∧
    (mkCommandSyntaxError command details).exitCode = 2 ∧
    (mkCommandSyntaxError command details).message
      = command ++ strL ": " ++ details ∧
    (mkParsingError m lineOpt posOpt).exitCode = 2 ∧
    (mkParsingError m lineOpt posOpt).message = m ∧
    (mkUnmatchedQuoteError line q).exitCode = 2 ∧
    (mkUnmatchedBracketError line b).exitCode = 2 ∧
    (mkInvalidSyntaxError line d2).exitCode = 2 :=
  ⟨rfl, rfl, rfl, rfl, rfl, rfl, rfl, rfl, rfl, rfl, rfl⟩

/-! ## PathManager lemmas (C10) -/

theorem splitOnChar_ne_nil (sep : Char) (l : Str) : splitOnChar sep l ≠ [] := by
  induction l with
  | nil => simp [splitOnChar]
  | cons c rest ih =>
    unfold splitOnChar
    by_cases hc : c = sep
    · simp [hc]
    · rw [if_neg hc]
      cases h : splitOnChar sep rest with
      | nil => simp
      | cons a b => simp

theorem splitOnChar_chunks (sep : Char) (l : Str) :
    ∀ chunk ∈ splitOnChar sep l, sep ∉ chunk := by
  induction l with
  | nil =>
    intro chunk hc
    simp only [splitOnChar, List.mem_singleton] at hc
    subst hc; simp
  | cons c rest ih =>
    intro chunk hc
    unfold splitOnChar at hc
    by_cases hcs : c = sep
    · rw [if_pos hcs] at hc
      rcases List.mem_cons.mp hc with h1 | h2
      · subst h1; simp
      · exact ih chunk h2
    · rw [if_neg hcs] at hc
      cases hsp : splitOnChar sep rest with
      | nil => exact absurd hsp (splitOnChar_ne_nil sep rest)
      | cons a b =>
        rw [hsp] at hc
        rcases List.mem_cons.mp hc with h1 | h2
        · subst h1
          intro hmem
          rcases List.mem_cons.mp hmem with h3 | h4
          · exact hcs h3.symm
          · exact (ih a (by rw [hsp]; simp)) h4
        · exact ih chunk (by rw [hsp]; simp [h2])

theorem splitOnChar_cons_sep (sep : Char) (t : Str) :
    splitOnChar sep (sep :: t) = [] :: splitOnChar sep t := by
  simp [splitOnChar]

theorem splitOnChar_no_sep (sep : Char) (c : Str) (h : sep ∉ c) :
    splitOnChar sep c = [c] := by
  induction c with
  | nil => rfl
  | cons x rest ih =>
    unfold splitOnChar
    rw [if_neg (fun he => h (by simp [he])),
      ih (fun hm => h (by simp [hm]))]

theorem splitOnChar_append_sep (sep : Char) (a t : Str) (h : sep ∉ a) :
    splitOnChar sep (a ++ sep :: t) = a :: splitOnChar sep t := by
  induction a with
  | nil => simp [splitOnChar_cons_sep]
  | cons x rest ih =>
    show splitOnChar sep (x :: (rest ++ sep :: t)) = _
    simp only [splitOnChar]
    rw [if_neg (fun he => h (by simp [he])),
      ih (fun hm => h (by simp [hm]))]

theorem split_joinSlash (cs : List Str) (h : plainAll cs) (hne : cs ≠ []) :
    splitOnChar '/' (joinSlash cs) = cs := by
  induction cs with
  | nil => exact absurd rfl hne
  | cons c rest ih =>
    cases rest with
    | nil => exact splitOnChar_no_sep '/' c (h c (by simp)).2.2.2
    | cons c2 r2 =>
      show splitOnChar '/' (c ++ '/' :: joinSlash (c2 :: r2)) = _
      rw [splitOnChar_append_sep '/' c _ (h c (by simp)).2.2.2,
        ih (fun d hd => h d (by simp [hd])) (by simp)]

theorem split_joinSlash_append_sep (cs : List Str) (t : Str)
    (h : plainAll cs) (hne : cs ≠ []) :
    splitOnChar '/' (joinSlash cs ++ '/' :: t)
      = cs ++ splitOnChar '/' t := by
  induction cs with
  | nil => exact absurd rfl hne
  | cons c rest ih =>
    cases rest with
    | nil =>
      show splitOnChar '/' (c ++ '/' :: t) = _
      rw [splitOnChar_append_sep '/' c t (h c (by simp)).2.2.2]
      rfl
    | cons c2 r2 =>
      show splitOnChar '/' ((c ++ '/' :: joinSlash (c2 :: r2)) ++ '/' :: t) = _
      rw [List.append_assoc, List.cons_append,
        splitOnChar_append_sep '/' c _ (h c (by simp)).2.2.2,
        ih (fun d hd => h d (by simp [hd])) (by simp)]
      rfl

theorem splitOnChar_replicate (k : Nat) (t : Str) :
    splitOnChar '/' (List.replicate k '/' ++ t)
      = List.replicate k [] ++ splitOnChar '/' t := by
  induction k with
  | zero => simp
  | succ k ih =>
    simp only [List.replicate_succ, List.cons_append, splitOnChar_cons_sep, ih]

theorem joinSlash_ne_nil (cs : List Str) (h : plainAll cs) (hne : cs ≠ []) :
    joinSlash cs ≠ [] := by
  cases cs with
  | nil => exact absurd rfl hne
  | cons c rest =>
    cases rest with
    | nil => exact (h c (by simp)).1
    | cons c2 r2 =>
      show c ++ '/' :: joinSlash (c2 :: r2) ≠ []
      simp

theorem joinSlash_cons_head (cs : List Str) (h : plainAll cs) (hne : cs ≠ []) :
    ∃ d t, joinSlash cs = d :: t ∧ d ≠ '/' := by
  cases cs with
  | nil => exact absurd rfl hne
  | cons c rest =>
    obtain ⟨ch, ct, hc⟩ : ∃ ch ct, c = ch :: ct := by
      have hc1 := (h c (by simp)).1
      cases c with
      | nil => exact absurd rfl hc1
      | cons a b => exact ⟨a, b, rfl⟩
    have hch : ch ≠ '/' := by
      intro he
      exact (h c (by simp)).2.2.2 (by rw [hc, he]; simp)
    cases rest with
    | nil => exact ⟨ch, ct, by simp [joinSlash, hc], hch⟩
    | cons c2 r2 =>
      exact ⟨ch, ct ++ '/' :: joinSlash (c2 :: r2), by simp [joinSlash, hc], hch⟩

theorem joinSlash_append (a b : List Str) (ha : a ≠ []) (hb : b ≠ []) :
    joinSlash (a ++ b) = joinSlash a ++ '/' :: joinSlash b := by
  induction a with
  | nil => exact absurd rfl ha
  | cons c rest ih =>
    cases rest with
    | nil =>
      cases b with
      | nil => exact absurd rfl hb
      | cons b1 b2 => rfl
    | cons c2 r2 =>
      show joinSlash (c :: ((c2 :: r2) ++ b)) = _
      have h1 : (c2 :: r2) ++ b = c2 :: (r2 ++ b) := rfl
      rw [h1]
      show c ++ '/' :: joinSlash (c2 :: (r2 ++ b)) = _
      rw [← h1, ih (by simp)]
      show _ = (c ++ '/' :: joinSlash (c2 :: r2)) ++ '/' :: joinSlash b
      simp [List.append_assoc]

theorem foldl_normStep_replicate (i k : Nat) (rest : List Str)
    (acc : List Str) :
    (List.replicate k [] ++ rest).foldl (normStep i) acc
      = rest.foldl (normStep i) acc := by
  induction k generalizing acc with
  | zero => simp
  | succ k ih =>
    simp only [List.replicate_succ, List.cons_append, List.foldl_cons]
    rw [show normStep i acc [] = acc by simp [normStep]]
    exact ih acc

theorem foldl_normStep_plain (i : Nat) (cs : List Str) (h : plainAll cs) :
    ∀ acc, cs.foldl (normStep i) acc = cs.reverse ++ acc := by
  induction cs with
  | nil => intro acc; simp
  | cons c rest ih =>
    intro acc
    have hc := h c (by simp)
    have hstep : normStep i acc c = c :: acc := by
      unfold normStep
      rw [if_neg (by simp [hc.1, hc.2.1]), if_pos (Or.inl hc.2.2.1)]
    simp only [List.foldl_cons, hstep]
    rw [ih (fun d hd => h d (by simp [hd])) (c :: acc)]
    simp

theorem foldl_normStep_plain_acc (i : Nat) (hi : 1 ≤ i) (cs : List Str)
    (hns : ∀ c ∈ cs, '/' ∉ c) :
    ∀ acc, plainAll acc → plainAll (cs.foldl (normStep i) acc) := by
  induction cs with
  | nil => intro acc hacc; simpa using hacc
  | cons c rest ih =>
    intro acc hacc
    simp only [List.foldl_cons]
    apply ih (fun d hd => hns d (by simp [hd]))
    unfold normStep
    by_cases h1 : c = [] ∨ c = ['.']
    · rw [if_pos h1]; exact hacc
    · rw [if_neg h1]
      push_neg at h1
      by_cases h2 : c ≠ ['.', '.'] ∨ (i = 0 ∧ acc = [])
          ∨ (acc ≠ [] ∧ acc.head? = some ['.', '.'])
      · rw [if_pos h2]
        intro d hd
        rcases List.mem_cons.mp hd with h3 | h4
        · subst h3
          have hdd : d ≠ ['.', '.'] := by
            rcases h2 with hd1 | hd2 | hd3
            · exact hd1
            · omega
            · obtain ⟨hane, hhead⟩ := hd3
              cases acc with
              | nil => exact absurd rfl hane
              | cons a t =>
                have hpa := hacc a (by simp)
                simp only [List.head?_cons, Option.some_inj] at hhead
                exact absurd hhead hpa.2.2.1
          exact ⟨h1.1, h1.2, hdd, hns d (by simp)⟩
        · exact hacc d h4
      · rw [if_neg h2]
        by_cases h3 : acc ≠ []
        · rw [if_pos h3]
          intro d hd
          exact hacc d (List.mem_of_mem_tail hd)
        · rw [if_neg h3]
          exact hacc

theorem normpath_of_ne (p : Str) (h : p ≠ []) :
    normpath p =
      if normAssemble (initialSlashes p)
          (((splitOnChar '/' p).foldl (normStep (initialSlashes p)) []).reverse)
          = [] then ['.']
      else normAssemble (initialSlashes p)
        (((splitOnChar '/' p).foldl (normStep (initialSlashes p)) []).reverse)
    := by
  unfold normpath
  rw [if_neg h]

theorem initialSlashes_abs (p : Str) (hp : p.take 1 = ['/']) :
    initialSlashes p = 1 ∨ initialSlashes p = 2 := by
  unfold initialSlashes
  rw [if_pos hp]
  split
  · right; rfl
  · left; rfl

theorem plainAll_reverse (cs : List Str) (h : plainAll cs) :
    plainAll cs.reverse := by
  intro c hc
  exact h c (List.mem_reverse.mp hc)

theorem normAssemble_ne_nil (k : Nat) (cs : List Str) (hk : k = 1 ∨ k = 2) :
    normAssemble k cs ≠ [] := by
  unfold normAssemble
  rcases hk with rfl | rfl <;> simp

theorem normAssemble_take1 (k : Nat) (cs : List Str) (hk : k = 1 ∨ k = 2) :
    (normAssemble k cs).take 1 = ['/'] := by
  unfold normAssemble
  rcases hk with rfl | rfl <;> simp

/-- Shape of `normpath` on an absolute path: one or two leading slashes
followed by a slash-joined list of plain components. -/
theorem normpath_abs_shape (p : Str) (hp : p.take 1 = ['/']) :
    ∃ k cs, (k = 1 ∨ k = 2) ∧ plainAll cs ∧
      normpath p = normAssemble k cs := by
  have hpne : p ≠ [] := by
    intro h; rw [h] at hp; simp at hp
  have hk := initialSlashes_abs p hp
  have hi1 : 1 ≤ initialSlashes p := by rcases hk with h | h <;> omega
  have hplain : plainAll
      (((splitOnChar '/' p).foldl (normStep (initialSlashes p)) []).reverse) :=
    plainAll_reverse _
      (foldl_normStep_plain_acc _ hi1 _ (splitOnChar_chunks '/' p) []
        (fun c hc => absurd hc (List.not_mem_nil c)))
  refine ⟨initialSlashes p, _, hk, hplain, ?_⟩
  rw [normpath_of_ne p hpne, if_neg (normAssemble_ne_nil _ _ hk)]

theorem initialSlashes_replicate_append (k : Nat) (t : Str)
    (hk : k = 1 ∨ k = 2)
    (ht : t = [] ∨ ∃ d r, t = d :: r ∧ d ≠ '/') :
    initialSlashes (List.replicate k '/' ++ t) = k := by
  rcases hk with rfl | rfl
  · rcases ht with rfl | ⟨d, r, rfl, hd⟩
    · rfl
    · unfold initialSlashes
      simp [List.replicate, hd]
  · rcases ht with rfl | ⟨d, r, rfl, hd⟩
    · rfl
    · unfold initialSlashes
      simp [List.replicate, hd]

theorem joinSlash_head_cases (cs : List Str) (h : plainAll cs) :
    joinSlash cs = [] ∨ ∃ d r, joinSlash cs = d :: r ∧ d ≠ '/' := by
  by_cases hne : cs = []
  · subst hne; left; rfl
  · right
    obtain ⟨d, r, hj, hd⟩ := joinSlash_cons_head cs h hne
    exact ⟨d, r, hj, hd⟩

/-- `normpath` fixes an already-normalised absolute path. -/
theorem normpath_assemble_fix (k : Nat) (cs : List Str)
    (hk : k = 1 ∨ k = 2) (h : plainAll cs) :
    normpath (normAssemble k cs) = normAssemble k cs := by
  have hne := normAssemble_ne_nil k cs hk
  rw [normpath_of_ne _ hne]
  have hinit : initialSlashes (normAssemble k cs) = k :=
    initialSlashes_replicate_append k _ hk (joinSlash_head_cases cs h)
  rw [hinit]
  by_cases hcs : cs = []
  · subst hcs
    have hsplit : splitOnChar '/' (normAssemble k []) =
        List.replicate k [] ++ [[]] := by
      show splitOnChar '/' (List.replicate k '/' ++ joinSlash []) = _
      rw [show joinSlash [] = [] from rfl, List.append_nil]
      rw [show (List.replicate k ([] : Str)) ++ [[]]
            = List.replicate k ([] : Str) ++ splitOnChar '/' [] from rfl]
      rw [← List.append_nil (List.replicate k '/')]
      exact splitOnChar_replicate k []
    rw [hsplit, foldl_normStep_replicate]
    rw [show ([[]] : List Str).foldl (normStep k) [] = [] by simp [normStep]]
    simp only [List.reverse_nil]
    rw [if_neg hne]
  · have hsplit : splitOnChar '/' (normAssemble k cs)
        = List.replicate k [] ++ cs := by
      show splitOnChar '/' (List.replicate k '/' ++ joinSlash cs) = _
      rw [splitOnChar_replicate, split_joinSlash cs h hcs]
    rw [hsplit, foldl_normStep_replicate, foldl_normStep_plain k cs h []]
    simp only [List.append_nil, List.reverse_reverse]
    rw [if_neg hne]

/-- `normpath` strips the trailing slash off a normalised absolute path
with at least one component. -/
theorem normpath_assemble_slash (k : Nat) (cs : List Str)
    (hk : k = 1 ∨ k = 2) (h : plainAll cs) (hcs : cs ≠ []) :
    normpath (normAssemble k cs ++ ['/']) = normAssemble k cs := by
  have hne : normAssemble k cs ++ ['/'] ≠ [] := by simp
  rw [normpath_of_ne _ hne]
  obtain ⟨d, r, hj, hd⟩ := joinSlash_cons_head cs h hcs
  have hshape : normAssemble k cs ++ ['/']
      = List.replicate k '/' ++ (joinSlash cs ++ '/' :: []) := by
    show (List.replicate k '/' ++ joinSlash cs) ++ ['/'] = _
    simp [List.append_assoc]
  have hinit : initialSlashes (normAssemble k cs ++ ['/']) = k := by
    rw [hshape]
    refine initialSlashes_replicate_append k _ hk ?_
    right
    exact ⟨d, r ++ ['/'], by rw [hj]; rfl, hd⟩
  rw [hinit]
  have hsplit : splitOnChar '/' (normAssemble k cs ++ ['/'])
      = List.replicate k [] ++ (cs ++ [[]]) := by
    rw [hshape, splitOnChar_replicate, split_joinSlash_append_sep cs [] h hcs]
    rfl
  rw [hsplit, foldl_normStep_replicate, List.foldl_append,
    foldl_normStep_plain k cs h []]
  rw [show ([[]] : List Str).foldl (normStep k) (cs.reverse ++ [])
        = cs.reverse ++ [] by simp [normStep]]
  simp only [List.append_nil, List.reverse_reverse]
  rw [if_neg (normAssemble_ne_nil k cs hk)]

theorem getLast?_mem_of_eq (l : Str) (d : Char) (h : l.getLast? = some d) :
    d ∈ l := by
  cases l with
  | nil => simp at h
  | cons a t =>
    rw [List.getLast?_eq_getLast_of_ne_nil (by simp)] at h
    have hmem := List.getLast_mem (l := a :: t) (by simp)
    exact (Option.some_inj.mp h) ▸ hmem

theorem getLast?_replicate_slash (k : Nat) (hk : 1 ≤ k) :
    (List.replicate k '/').getLast? = some '/' := by
  induction k with
  | zero => omega
  | succ k ih =>
    cases k with
    | zero => rfl
    | succ m =>
      rw [List.replicate_succ, List.replicate_succ, List.getLast?_cons_cons,
        ← List.replicate_succ]
      exact ih (by omega)

theorem joinSlash_getLast_ne_slash :
    ∀ (cs : List Str), plainAll cs → cs ≠ [] →
      (joinSlash cs).getLast? ≠ some '/' := by
  intro cs
  induction cs with
  | nil => intro _ hne; exact absurd rfl hne
  | cons c rest ih =>
    intro h hne
    cases rest with
    | nil =>
      intro hlast
      exact (h c (by simp)).2.2.2 (getLast?_mem_of_eq _ _ hlast)
    | cons c2 r2 =>
      have hplain2 : plainAll (c2 :: r2) := fun d hd => h d (by simp [hd])
      have hjoin2 : joinSlash (c2 :: r2) ≠ [] :=
        joinSlash_ne_nil _ hplain2 (by simp)
      obtain ⟨jh, jt, hj2⟩ : ∃ jh jt, joinSlash (c2 :: r2) = jh :: jt := by
        cases hjj : joinSlash (c2 :: r2) with
        | nil => exact absurd hjj hjoin2
        | cons a t => exact ⟨a, t, rfl⟩
      show (c ++ '/' :: joinSlash (c2 :: r2)).getLast? ≠ some '/'
      rw [List.getLast?_append_of_ne_nil _ (by simp), hj2,
        List.getLast?_cons_cons, ← hj2]
      exact ih hplain2 (by simp)

theorem lstripSlash_assemble (k : Nat) (cs : List Str) (h : plainAll cs) :
    lstripSlash (normAssemble k cs) = joinSlash cs := by
  unfold lstripSlash normAssemble
  rw [dropWhile_append_of_all _ _ _
    (fun c hc => by rw [List.eq_of_mem_replicate hc]; simp)]
  rcases joinSlash_head_cases cs h with hj | ⟨d, r, hj, hd⟩
  · rw [hj]; rfl
  · rw [hj]
    exact dropWhile_cons_of_neg _ _ _ (by simp [hd])

theorem pjoin_abs (a b : Str) (ha : a.take 1 = ['/']) :
    (pjoin a b).take 1 = ['/'] := by
  obtain ⟨at2, ha2⟩ : ∃ at2, a = '/' :: at2 := by
    cases a with
    | nil => simp at ha
    | cons x t =>
      have hx : x = '/' := by simpa using ha
      exact ⟨t, by rw [hx]⟩
  unfold pjoin
  by_cases hb : b.take 1 = ['/']
  · rw [if_pos hb]; exact hb
  · rw [if_neg hb]
    by_cases h2 : a = [] ∨ a.getLast? = some '/'
    · rw [if_pos h2, ha2]; rfl
    · rw [if_neg h2, ha2]; rfl

theorem joinSlash_take1_ne_abs (cs : List Str) (h : plainAll cs) :
    ¬((joinSlash cs).take 1 = ['/']) := by
  rcases joinSlash_head_cases cs h with hj | ⟨d, r, hj, hd⟩
  · rw [hj]; simp
  · rw [hj]
    simp [hd]

/-- Core confinement fact: joining a chroot root (in normalised-absolute
shape) with a slash-joined list of plain components and re-normalising can
only yield the root itself or a path extending the root. -/
theorem chroot_confine (root : Str) (k0 : Nat) (rcs : List Str)
    (hk0 : k0 = 1 ∨ k0 = 2) (hrcs : plainAll rcs)
    (hroot : root = normAssemble k0 rcs)
    (cs : List Str) (hcs : plainAll cs) :
    normpath (pjoin root (joinSlash cs)) = root ∨
    (∃ t, normpath (pjoin root (joinSlash cs)) = root ++ '/' :: t) ∨
    (root.getLast? = some '/' ∧ ∃ t, t ≠ [] ∧
      normpath (pjoin root (joinSlash cs)) = root ++ t) := by
  have hbna := joinSlash_take1_ne_abs cs hcs
  by_cases hrcse : rcs = []
  · -- root is "/" or "//": it ends in a slash
    subst hrcse
    have hrepl : root = List.replicate k0 '/' := by
      rw [hroot]; simp [normAssemble, joinSlash]
    have hlast : root.getLast? = some '/' := by
      rw [hrepl]
      exact getLast?_replicate_slash k0 (by omega)
    have hjoin : pjoin root (joinSlash cs) = root ++ joinSlash cs := by
      unfold pjoin
      rw [if_neg hbna, if_pos (Or.inr hlast)]
    by_cases hcse : cs = []
    · subst hcse
      left
      rw [hjoin, show joinSlash [] = [] from rfl, List.append_nil, hroot]
      exact normpath_assemble_fix k0 [] hk0 (fun c hc => absurd hc
        (List.not_mem_nil c))
    · right; right
      refine ⟨hlast, joinSlash cs, joinSlash_ne_nil cs hcs hcse, ?_⟩
      rw [hjoin]
      have hform : root ++ joinSlash cs = normAssemble k0 cs := by
        rw [hrepl]; rfl
      rw [hform, normpath_assemble_fix k0 cs hk0 hcs, ← hform]
  · -- root has at least one component: it does not end in a slash
    have hjrcs : joinSlash rcs ≠ [] := joinSlash_ne_nil rcs hrcs hrcse
    have hlast : root.getLast? ≠ some '/' := by
      rw [hroot]
      show (List.replicate k0 '/' ++ joinSlash rcs).getLast? ≠ some '/'
      rw [List.getLast?_append_of_ne_nil _ hjrcs]
      exact joinSlash_getLast_ne_slash rcs hrcs hrcse
    have hrne : root ≠ [] := by rw [hroot]; exact normAssemble_ne_nil _ _ hk0
    have hjoin : pjoin root (joinSlash cs) = root ++ '/' :: joinSlash cs := by
      unfold pjoin
      rw [if_neg hbna, if_neg (by
        intro hor
        rcases hor with h1 | h2
        · exact hrne h1
        · exact hlast h2)]
    by_cases hcse : cs = []
    · left
      subst hcse
      rw [hjoin, show joinSlash ([] : List Str) = [] from rfl]
      have hform : root ++ ['/'] = normAssemble k0 rcs ++ ['/'] := by
        rw [hroot]
      rw [hform, normpath_assemble_slash k0 rcs hk0 hrcs hrcse, ← hroot]
    · right; left
      refine ⟨joinSlash cs, ?_⟩
      have hform : root ++ '/' :: joinSlash cs
          = normAssemble k0 (rcs ++ cs) := by
        rw [hroot]
        show (List.replicate k0 '/' ++ joinSlash rcs) ++ '/' :: joinSlash cs
          = List.replicate k0 '/' ++ joinSlash (rcs ++ cs)
        rw [joinSlash_append rcs cs hrcse hcse, List.append_assoc]
      rw [hjoin, hform,
        normpath_assemble_fix k0 (rcs ++ cs) hk0 (by
          intro d hd
          rcases List.mem_append.mp hd with h1 | h2
          · exact hrcs d h1
          · exact hcs d h2), ← hform]

/-- C10 (amended): with any chroot root that is a normalised absolute path
and any absolute cwd, `resolve_path` returns the root itself, or the root
followed by `"/"` and more, or — only when the root itself ends in a slash
(`"/"` or `"//"`, the case the original claim's `root ++ "/"`-prefix gloss
misses) — the root followed directly by more; traversal can never escape
the chroot. -/
theorem C10_chroot_confinement (pm : PM) (root path : Str)
    (hcr : pm.chrootRoot = some root)
    (habs : root.take 1 = ['/'])
    (hnorm : normpath root = root)
    (hcwd : pm.cwd.take 1 = ['/']) :
    resolvePath pm path = root ∨
    (∃ t, resolvePath pm path = root ++ '/' :: t) ∨
    (root.getLast? = some '/' ∧ ∃ t, t ≠ [] ∧
      resolvePath pm path = root ++ t) := by
  set p1 := if path = [] then pm.cwd else path with hp1
  set virt := if p1.take 1 = ['/'] then p1 else pjoin pm.cwd p1 with hvirt
  have hvabs : virt.take 1 = ['/'] := by
    rw [hvirt]
    by_cases h : p1.take 1 = ['/']
    · rw [if_pos h]; exact h
    · rw [if_neg h]; exact pjoin_abs pm.cwd p1 hcwd
  obtain ⟨k, cs, hk, hcsp, hshape⟩ := normpath_abs_shape virt hvabs
  have hv2abs : (normpath virt).take 1 = ['/'] := by
    rw [hshape]; exact normAssemble_take1 k cs hk
  have hres : resolvePath pm path
      = normpath (pjoin root (lstripSlash (normpath virt))) := by
    unfold resolvePath
    rw [hcr]
    dsimp only
    rw [← hp1, ← hvirt, if_pos hv2abs]
  have hstrip : lstripSlash (normpath virt) = joinSlash cs := by
    rw [hshape]; exact lstripSlash_assemble k cs hcsp
  rw [hres, hstrip]
  obtain ⟨k0, rcs, hk0, hrcsp, hrshape⟩ := normpath_abs_shape root habs
  rw [hnorm] at hrshape
  exact chroot_confine root k0 rcs hk0 hrcsp hrshape cs hcsp

/-- C10 as written is refuted at `chroot_root = "/"` (a normalised absolute
path): `resolve_path("/foo")` returns `"/foo"`, which neither equals `"/"`
nor starts with `chroot_root ++ "/" = "//"`; the result is still confined,
but the claim's prefix gloss fails for the root `"/"`. -/
theorem C10_chroot_escape_counterexample :
    ((strL "/").take 1 = ['/']) ∧
    normpath (strL "/") = strL "/" ∧
    resolvePath ⟨strL "/", some (strL "/")⟩ (strL "/foo") = strL "/foo" ∧
    ¬(resolvePath ⟨strL "/", some (strL "/")⟩ (strL "/foo") = strL "/" ∨
      ∃ t, resolvePath ⟨strL "/", some (strL "/")⟩ (strL "/foo")
        = strL "/" ++ '/' :: t) := by
  refine ⟨by decide, by decide, by decide, ?_⟩
  intro hor
  rcases hor with h1 | ⟨t, h2⟩
  · exact absurd h1 (by decide)
  · rw [show resolvePath ⟨strL "/", some (strL "/")⟩ (strL "/foo")
        = strL "/foo" from by decide] at h2
    have h7 : ('/' : Char) :: 'f' :: 'o' :: 'o' :: [] = '/' :: '/' :: t := h2
    simp at h7

theorem C10_chroot_confinement_witness :
    ((⟨strL "/", some (strL "/real/root")⟩ : PM).chrootRoot
      = some (strL "/real/root")) ∧
    ((strL "/real/root").take 1 = ['/']) ∧
    normpath (strL "/real/root") = strL "/real/root" ∧
    ((strL "/").take 1 = ['/']) ∧
    (resolvePath ⟨strL "/", some (strL "/real/root")⟩ (strL "../etc")
        = strL "/real/root" ∨
     (∃ t, resolvePath ⟨strL "/", some (strL "/real/root")⟩ (strL "../etc")
        = strL "/real/root" ++ '/' :: t) ∨
     ((strL "/real/root").getLast? = some '/' ∧ ∃ t, t ≠ [] ∧
       resolvePath ⟨strL "/", some (strL "/real/root")⟩ (strL "../etc")
        = strL "/real/root" ++ t)) :=
  ⟨rfl, by decide, by decide, by decide,
    C10_chroot_confinement ⟨strL "/", some (strL "/real/root")⟩
      (strL "/real/root") (strL "../etc") rfl (by decide) (by decide)
      (by decide)⟩
